import Mathlib

/-!
Verification of the KGrad hyperdual-number library.

Shallow embedding of the KGrad sources (`HDual.py`, `AFuncs.py`, `TDerivs.py`)
and proofs about them.  Coefficients are modelled as exact rationals (`ℚ`):
the Python code computes with floats / numpy arrays, and every claim under
study is a statement about the underlying real arithmetic, so we embed the
arithmetic exactly and treat numpy dtype promotion as out of scope.

Python exceptions are modelled with `Except PyErr`; numpy's warn-and-continue
division by zero (which yields `inf`/`nan` entries rather than raising) is
flagged with the distinguished outcome `PyErr.nonFinite`, since IEEE
infinities are not representable in `ℚ`.
-/

/-- numpy's default absolute tolerance (`atol = 1e-8`) used by `np.allclose`. -/
def atol : ℚ := 1 / 100000000

/-- numpy's default relative tolerance (`rtol = 1e-5`) used by `np.allclose`. -/
def rtol : ℚ := 1 / 100000

/-- One componentwise comparison of `np.allclose` / `np.isclose`:
`|x - y| <= atol + rtol * |y|`. -/
def npclose (x y : ℚ) : Prop := |x - y| ≤ atol + rtol * |y|

instance (x y : ℚ) : Decidable (npclose x y) := by
  unfold npclose
  infer_instance

/-- Hyperdual numbers, `class hdual` of `HDual.py`: the field `value` holds the
coefficient list (`self.value`); the source's `self.dim` is `value.length`
(set to `len(self.value)` in `__init__`). -/
structure hdual where
  value : List ℚ
  deriving DecidableEq

/-- `self.dim` of an hdual. -/
def hdual.dim (a : hdual) : ℕ := a.value.length

/-- Zero-padded coefficient view: `a.coeff i` is `a.value[i]` when `i < dim`
and `0` beyond.  (The source's `__getitem__` raises for `i >= dim`; `coeff`
is the padded view used to state coefficient formulas.) -/
def hdual.coeff (a : hdual) (i : ℕ) : ℚ := a.value.getD i 0

/-- `hdual.__add__` for two hduals:
`l = sorted((self.value, other.value), key=len)` (stable, so for equal
lengths `l = [self.value, other.value]`), then `c = l[1].copy()` and
`c[:len(l[0])] += l[0]`.  Hence coefficient `i` of the result is
`long[i] + short[i]` with the shorter operand zero-padded. -/
def hdual.add (a b : hdual) : hdual :=
  if b.value.length < a.value.length then
    ⟨(List.range a.value.length).map (fun i => a.value.getD i 0 + b.value.getD i 0)⟩
  else
    ⟨(List.range b.value.length).map (fun i => b.value.getD i 0 + a.value.getD i 0)⟩

/-- `hdual.__neg__`: `hdual(-self.value)`. -/
def hdual.neg (a : hdual) : hdual := ⟨a.value.map (fun q => -q)⟩

/-- `hdual.__sub__`: `self + -other`. -/
def hdual.sub (a b : hdual) : hdual := a.add b.neg

/-- `hdual.conj`: `hdual([self.value[0], *(-self.value[1:])])`.
(The source indexes `self.value[0]`, so it raises IndexError on an empty
coefficient array; in the library `conj` is only ever applied to the divisor
of the non-real division branch, which is nonempty there.  We return the
empty hdual in that unreachable corner.) -/
def hdual.conj (a : hdual) : hdual :=
  match a.value with
  | [] => ⟨[]⟩
  | x :: xs => ⟨x :: xs.map (fun q => -q)⟩

/-- `hdual.is_real`: `np.allclose(self.value[1:], np.zeros(self.dim - 1))`. -/
def hdual.isReal (a : hdual) : Prop := ∀ q ∈ a.value.tail, npclose q 0

instance (a : hdual) : Decidable a.isReal := by
  unfold hdual.isReal
  infer_instance

/-- Inner loop of `hdual.__mul__` for a fixed `j` (`range(self.dim)` index).
The source runs
`for k in range(max(self.dim - j, other.dim)): prod[j+k] += comb(j+k, k)*self.value[j]*other.value[k]`
inside `try: ... except IndexError: continue`.  An iteration raises
IndexError as soon as `j + k >= len(prod)` (numpy write) or
`k >= other.dim` (read), and both conditions are monotone in `k`, so the
loop performs exactly
`min(max(self.dim - j, other.dim), min(len(prod) - j, other.dim))`
iterations and no partial update happens on the failing step.  The fold
below runs that many steps.  (All indices touched are in range, so `getD`
agrees with the numpy indexing.) -/
def mulLine (av bv : List ℚ) (j : ℕ) (p : List ℚ) : List ℚ :=
  (List.range (min (max (av.length - j) bv.length) (min (p.length - j) bv.length))).foldl
    (fun acc k =>
      acc.set (j + k) (acc.getD (j + k) 0 + (Nat.choose (j + k) k : ℚ) * av.getD j 0 * bv.getD k 0))
    p

/-- `hdual.__mul__` for two hduals:
`prod = np.zeros(max(self.dim, other.dim))`, then the nested loops of
`mulLine` for each `j in range(self.dim)`, then `hdual(prod)`. -/
def hdual.mul (a b : hdual) : hdual :=
  ⟨(List.range a.value.length).foldl (fun p j => mulLine a.value b.value j p)
    (List.replicate (max a.value.length b.value.length) 0)⟩

theorem getD_set_self (l : List ℚ) (i : ℕ) (v : ℚ) (h : i < l.length) :
    (l.set i v).getD i 0 = v := by
  rw [List.getD_eq_getElem _ _ (by simpa using h)]
  simp [List.getElem_set]

theorem getD_set_ne (l : List ℚ) (i m : ℕ) (v : ℚ) (h : m ≠ i) :
    (l.set i v).getD m 0 = l.getD m 0 := by
  by_cases hm : m < l.length
  · rw [List.getD_eq_getElem _ _ (by simpa using hm), List.getD_eq_getElem _ _ hm]
    exact List.getElem_set_ne (Ne.symm h) _
  · rw [List.getD_eq_default _ _ (by simpa using not_lt.mp hm),
      List.getD_eq_default _ _ (not_lt.mp hm)]

/-- A fold whose step only `set`s entries preserves the list length. -/
theorem foldlSet_length (g : List ℚ → ℕ → ℚ) (idx : ℕ → ℕ) :
    ∀ (l : List ℕ) (p : List ℚ),
      (l.foldl (fun acc k => acc.set (idx k) (g acc k)) p).length = p.length := by
  intro l
  induction l with
  | nil => intro p; rfl
  | cons k ks ih =>
    intro p
    simpa [List.foldl_cons] using (ih _).trans (List.length_set p _ _)

theorem getD_coeff_zero (a : hdual) (i : ℕ) (h : a.value.length ≤ i) : a.coeff i = 0 :=
  List.getD_eq_default _ _ h

theorem mulLine_length (av bv : List ℚ) (j : ℕ) (p : List ℚ) :
    (mulLine av bv j p).length = p.length := by
  unfold mulLine
  exact foldlSet_length _ _ _ p

/-- The inner fold of `mulLine`, as a function of the iteration count `n`:
each iteration `k` adds its term at the distinct slot `j + k`. -/
theorem innerFold_getD (av bv : List ℚ) (j : ℕ) (n : ℕ) (p : List ℚ)
    (hw : j + n ≤ p.length) (m : ℕ) :
    ((List.range n).foldl
      (fun acc k =>
        acc.set (j + k) (acc.getD (j + k) 0 + (Nat.choose (j + k) k : ℚ) * av.getD j 0 * bv.getD k 0))
      p).getD m 0 =
    p.getD m 0 +
      (if j ≤ m ∧ m < j + n then (Nat.choose m (m - j) : ℚ) * av.getD j 0 * bv.getD (m - j) 0 else 0) := by
  induction n generalizing m with
  | zero => simp
  | succ n ih =>
    rw [List.range_succ, List.foldl_append]
    have hlen : ((List.range n).foldl
        (fun acc k =>
          acc.set (j + k) (acc.getD (j + k) 0 + (Nat.choose (j + k) k : ℚ) * av.getD j 0 * bv.getD k 0))
        p).length = p.length :=
      foldlSet_length _ _ _ p
    simp only [List.foldl_cons, List.foldl_nil]
    by_cases hm : m = j + n
    · subst hm
      rw [getD_set_self _ _ _ (by omega)]
      rw [ih (by omega) (j + n)]
      have hfalse : ¬ (j ≤ j + n ∧ j + n < j + n) := by omega
      rw [if_neg hfalse]
      have htrue : j ≤ j + n ∧ j + n < j + (n + 1) := by omega
      rw [if_pos htrue]
      have h1 : j + n - j = n := by omega
      rw [h1]
      ring
    · rw [getD_set_ne _ _ _ _ hm]
      rw [ih (by omega) m]
      congr 1
      by_cases hc : j ≤ m ∧ m < j + n
      · rw [if_pos hc, if_pos (by omega)]
      · rw [if_neg hc, if_neg (by omega)]

theorem getD_replicate_zero (n i : ℕ) : (List.replicate n (0 : ℚ)).getD i 0 = 0 := by
  by_cases h : i < n
  · rw [List.getD_eq_getElem _ _ (by simpa using h)]
    simp
  · exact List.getD_eq_default _ _ (by simpa using not_lt.mp h)

theorem getD_map_range (n : ℕ) (f : ℕ → ℚ) (i : ℕ) :
    ((List.range n).map f).getD i 0 = if i < n then f i else 0 := by
  by_cases h : i < n
  · rw [if_pos h, List.getD_eq_getElem _ _ (by simpa using h)]
    simp
  · rw [if_neg h]
    exact List.getD_eq_default _ _ (by simpa using not_lt.mp h)

/-- One `mulLine` pass, restated through `innerFold_getD`: for an accumulator
of the full product length `D`, row `j` adds its binomial term at each slot. -/
theorem mulLine_getD (av bv : List ℚ) (j : ℕ) (p : List ℚ) (hj : j ≤ p.length) (m : ℕ) :
    (mulLine av bv j p).getD m 0 =
    p.getD m 0 +
      (if j ≤ m ∧ m < j + min (max (av.length - j) bv.length) (min (p.length - j) bv.length) then
        (Nat.choose m (m - j) : ℚ) * av.getD j 0 * bv.getD (m - j) 0 else 0) := by
  unfold mulLine
  exact innerFold_getD av bv j _ p (by omega) m

theorem foldlMulLine_length (av bv : List ℚ) :
    ∀ (l : List ℕ) (p : List ℚ),
      (l.foldl (fun p j => mulLine av bv j p) p).length = p.length := by
  intro l
  induction l with
  | nil => intro p; rfl
  | cons k ks ih => intro p; simpa [List.foldl_cons] using (ih _).trans (mulLine_length _ _ _ _)

/-- The outer loop of `hdual.__mul__` over `j in range(n)`, accumulated. -/
theorem outerFold_getD (av bv : List ℚ) :
    ∀ (n : ℕ) (p : List ℚ), p.length = max av.length bv.length → n ≤ av.length → ∀ m : ℕ,
    ((List.range n).foldl (fun p j => mulLine av bv j p) p).getD m 0 =
    p.getD m 0 +
      ∑ j ∈ Finset.range n,
        (if j ≤ m ∧ m < j + min (max av.length bv.length - j) bv.length then
          (Nat.choose m (m - j) : ℚ) * av.getD j 0 * bv.getD (m - j) 0 else 0) := by
  intro n
  induction n with
  | zero => intro p hp hn m; simp
  | succ n ih =>
    intro p hp hn m
    rw [List.range_succ, List.foldl_append]
    have hqlen : ((List.range n).foldl (fun p j => mulLine av bv j p) p).length = p.length :=
      foldlMulLine_length av bv _ p
    simp only [List.foldl_cons, List.foldl_nil]
    rw [mulLine_getD av bv n _ (by omega) m]
    rw [ih p hp (by omega) m]
    rw [hqlen, hp]
    have hbound : min (max (av.length - n) bv.length) (min (max av.length bv.length - n) bv.length)
        = min (max av.length bv.length - n) bv.length := by omega
    rw [hbound, Finset.sum_range_succ]
    ring

/-- Length invariant of `hdual.__mul__`: the product has
`max(self.dim, other.dim)` coefficients. -/
theorem hdual.mul_length (a b : hdual) :
    (a.mul b).value.length = max a.value.length b.value.length := by
  unfold hdual.mul
  simp [foldlMulLine_length]

/-- Coefficient characterization of `hdual.__mul__`: below the truncation
order, the product is the binomially weighted convolution of the two
zero-padded coefficient sequences. -/
theorem hdual.mul_coeff (a b : hdual) (m : ℕ) (hm : m < max a.value.length b.value.length) :
    (a.mul b).coeff m =
      ∑ k ∈ Finset.range (m + 1), (Nat.choose m k : ℚ) * a.coeff (m - k) * b.coeff k := by
  unfold hdual.mul hdual.coeff
  rw [outerFold_getD a.value b.value a.value.length (List.replicate _ 0)
    (by simp) (le_refl _) m]
  rw [getD_replicate_zero, zero_add]
  have step1 : ∀ j ∈ Finset.range a.value.length,
      (if j ≤ m ∧ m < j + min (max a.value.length b.value.length - j) b.value.length then
        (Nat.choose m (m - j) : ℚ) * a.value.getD j 0 * b.value.getD (m - j) 0 else 0) =
      (if j ≤ m ∧ m - j < b.value.length then
        (Nat.choose m (m - j) : ℚ) * a.value.getD j 0 * b.value.getD (m - j) 0 else 0) := by
    intro j hj
    rw [Finset.mem_range] at hj
    have hiff : (j ≤ m ∧ m < j + min (max a.value.length b.value.length - j) b.value.length)
        ↔ (j ≤ m ∧ m - j < b.value.length) := by omega
    by_cases hc : j ≤ m ∧ m - j < b.value.length
    · rw [if_pos (hiff.mpr hc), if_pos hc]
    · rw [if_neg (fun hx => hc (hiff.mp hx)), if_neg hc]
  rw [Finset.sum_congr rfl step1]
  have step2 : ∑ j ∈ Finset.range a.value.length,
      (if j ≤ m ∧ m - j < b.value.length then
        (Nat.choose m (m - j) : ℚ) * a.value.getD j 0 * b.value.getD (m - j) 0 else 0) =
      ∑ j ∈ Finset.range (m + 1),
      (if j ≤ m ∧ m - j < b.value.length then
        (Nat.choose m (m - j) : ℚ) * a.value.getD j 0 * b.value.getD (m - j) 0 else 0) := by
    rcases le_total a.value.length (m + 1) with hle | hle
    · apply Finset.sum_subset (Finset.range_subset.mpr hle)
      intro j hj hnot
      rw [Finset.mem_range] at hj
      rw [Finset.mem_range, not_lt] at hnot
      rw [List.getD_eq_default a.value _ hnot]
      simp
    · symm
      apply Finset.sum_subset (Finset.range_subset.mpr hle)
      intro j hj hnot
      rw [Finset.mem_range, not_lt] at hnot
      rw [if_neg (by omega)]
  rw [step2]
  have step3 : ∀ j ∈ Finset.range (m + 1),
      (if j ≤ m ∧ m - j < b.value.length then
        (Nat.choose m (m - j) : ℚ) * a.value.getD j 0 * b.value.getD (m - j) 0 else 0) =
      (Nat.choose m (m - j) : ℚ) * a.value.getD j 0 * b.value.getD (m - j) 0 := by
    intro j hj
    rw [Finset.mem_range] at hj
    by_cases hc : j ≤ m ∧ m - j < b.value.length
    · rw [if_pos hc]
    · rw [if_neg hc]
      have hb : b.value.length ≤ m - j := by omega
      rw [List.getD_eq_default b.value _ hb]
      ring
  rw [Finset.sum_congr rfl step3]
  have step4 := Finset.sum_range_reflect
    (fun k => (Nat.choose m k : ℚ) * a.value.getD (m - k) 0 * b.value.getD k 0) (m + 1)
  rw [← step4]
  apply Finset.sum_congr rfl
  intro j hj
  rw [Finset.mem_range] at hj
  have h1 : m + 1 - 1 - j = m - j := by omega
  have h2 : m - (m - j) = j := by omega
  rw [h1, h2]

/-- Coefficients of the product vanish at orders at or above the truncation
dimension (they are simply not represented). -/
theorem hdual.mul_coeff_high (a b : hdual) (m : ℕ)
    (hm : max a.value.length b.value.length ≤ m) : (a.mul b).coeff m = 0 :=
  getD_coeff_zero _ _ (by rw [hdual.mul_length]; exact hm)

/-- Length invariant of `hdual.__add__`: the sum has
`max(self.dim, other.dim)` coefficients. -/
theorem hdual.add_length (a b : hdual) :
    (a.add b).value.length = max a.value.length b.value.length := by
  unfold hdual.add
  by_cases h : b.value.length < a.value.length
  · rw [if_pos h]
    simp only [List.length_map, List.length_range]
    omega
  · rw [if_neg h]
    simp only [List.length_map, List.length_range]
    omega

/-- Coefficient characterization of `hdual.__add__`: pointwise addition of
the zero-padded coefficient sequences (at every index, since both sides
vanish beyond the result length). -/
theorem hdual.add_coeff (a b : hdual) (i : ℕ) :
    (a.add b).coeff i = a.coeff i + b.coeff i := by
  unfold hdual.add hdual.coeff
  by_cases h : b.value.length < a.value.length
  · rw [if_pos h]
    rw [getD_map_range]
    by_cases hi : i < a.value.length
    · rw [if_pos hi]
    · rw [if_neg hi]
      rw [List.getD_eq_default a.value _ (by omega), List.getD_eq_default b.value _ (by omega)]
      ring
  · rw [if_neg h]
    rw [getD_map_range]
    by_cases hi : i < b.value.length
    · rw [if_pos hi]
      ring
    · rw [if_neg hi]
      rw [List.getD_eq_default a.value _ (by omega), List.getD_eq_default b.value _ (by omega)]
      ring

theorem hdual.ext_values {a b : hdual} (h : a.value = b.value) : a = b := by
  cases a
  cases b
  simpa using h

theorem hdual.ext_coeff (a b : hdual) (hl : a.value.length = b.value.length)
    (hc : ∀ i < a.value.length, a.coeff i = b.coeff i) : a = b := by
  apply hdual.ext_values
  apply List.ext_getElem hl
  intro i h1 h2
  have h3 := hc i h1
  unfold hdual.coeff at h3
  rwa [List.getD_eq_getElem _ _ h1, List.getD_eq_getElem _ _ h2] at h3

theorem getD_map_neg (l : List ℚ) (i : ℕ) :
    (l.map (fun q => -q)).getD i 0 = -(l.getD i 0) := by
  by_cases h : i < l.length
  · rw [List.getD_eq_getElem _ _ (by simpa using h), List.getD_eq_getElem _ _ h]
    simp
  · rw [List.getD_eq_default _ _ (by simpa using not_lt.mp h),
      List.getD_eq_default _ _ (not_lt.mp h)]
    simp

theorem hdual.conj_length (a : hdual) : a.conj.value.length = a.value.length := by
  obtain ⟨l⟩ := a
  cases l with
  | nil => rfl
  | cons x xs => simp [hdual.conj]

theorem hdual.conj_coeff_zero (a : hdual) (h : a.value ≠ []) : a.conj.coeff 0 = a.coeff 0 := by
  obtain ⟨l⟩ := a
  cases l with
  | nil => simp at h
  | cons x xs => simp [hdual.conj, hdual.coeff]

theorem hdual.conj_coeff_succ (a : hdual) (k : ℕ) :
    a.conj.coeff (k + 1) = -(a.coeff (k + 1)) := by
  obtain ⟨l⟩ := a
  cases l with
  | nil => simp [hdual.conj, hdual.coeff]
  | cons x xs =>
    show (⟨x :: xs.map (fun q => -q)⟩ : hdual).coeff (k + 1) = _
    unfold hdual.coeff
    simp only [List.getD_cons_succ]
    exact getD_map_neg xs k

/-- Length of the leading run of exact zeros of a coefficient list. -/
def zrun : List ℚ → ℕ
  | [] => 0
  | x :: xs => if x = 0 then zrun xs + 1 else 0

/-- Index of the first exactly-nonzero coefficient at order at least one
(the exact order of the non-real part); `l.length` or more when there is
none.  Used as the termination measure of the conjugate-rationalizing
division branch, which doubles this order on each pass. -/
def nro (l : List ℚ) : ℕ := 1 + zrun l.tail

theorem zrun_le_length (l : List ℚ) : zrun l ≤ l.length := by
  induction l with
  | nil => simp [zrun]
  | cons x xs ih =>
    unfold zrun
    by_cases h : x = 0
    · rw [if_pos h]
      simpa using ih
    · rw [if_neg h]
      simp

theorem zrun_getD_eq_zero (l : List ℚ) (i : ℕ) (h : i < zrun l) : l.getD i 0 = 0 := by
  induction l generalizing i with
  | nil => simp [zrun] at h
  | cons x xs ih =>
    unfold zrun at h
    by_cases hx : x = 0
    · rw [if_pos hx] at h
      cases i with
      | zero => simpa using hx
      | succ k =>
        rw [List.getD_cons_succ]
        exact ih k (by omega)
    · rw [if_neg hx] at h
      omega

theorem zrun_lt_of_mem (l : List ℚ) (q : ℚ) (hq : q ∈ l) (hne : q ≠ 0) :
    zrun l < l.length := by
  induction l with
  | nil => simp at hq
  | cons x xs ih =>
    unfold zrun
    by_cases hx : x = 0
    · rw [if_pos hx]
      rcases List.mem_cons.mp hq with h | h
      · exact absurd (h.trans hx) hne
      · simpa using ih h
    · rw [if_neg hx]
      simp

theorem zrun_ge (l : List ℚ) (t : ℕ) (h : ∀ i < t, l.getD i 0 = 0) :
    min t l.length ≤ zrun l := by
  induction l generalizing t with
  | nil => simp
  | cons x xs ih =>
    cases t with
    | zero => simp
    | succ s =>
      have hx : x = 0 := by simpa using h 0 (by omega)
      unfold zrun
      rw [if_pos hx]
      have hs := ih s (fun i hi => by simpa using h (i + 1) (by omega))
      simp only [List.length_cons]
      omega

theorem nro_getD (l : List ℚ) (j : ℕ) (h1 : 1 ≤ j) (h2 : j < nro l) : l.getD j 0 = 0 := by
  obtain ⟨k, rfl⟩ : ∃ k, j = k + 1 := ⟨j - 1, by omega⟩
  cases l with
  | nil => simp
  | cons x xs =>
    rw [List.getD_cons_succ]
    unfold nro at h2
    simp only [List.tail_cons] at h2
    exact zrun_getD_eq_zero xs k (by omega)

theorem tail_getD (l : List ℚ) (i : ℕ) : l.tail.getD i 0 = l.getD (i + 1) 0 := by
  cases l with
  | nil => simp
  | cons x xs => simp

theorem nro_lt_of_not_isReal (a : hdual) (h : ¬ a.isReal) :
    nro a.value < a.value.length ∧ a.value ≠ [] := by
  unfold hdual.isReal at h
  push_neg at h
  obtain ⟨q, hq, hqc⟩ := h
  have hq0 : q ≠ 0 := by
    intro h0
    apply hqc
    rw [h0]
    unfold npclose atol rtol
    norm_num
  have hz := zrun_lt_of_mem _ q hq hq0
  have hne : a.value ≠ [] := by
    intro h0
    rw [h0] at hq
    simp at hq
  constructor
  · unfold nro
    have : a.value.tail.length + 1 = a.value.length := by
      cases hv : a.value with
      | nil => exact absurd hv hne
      | cons x xs => simp
    omega
  · exact hne

/-- Multiplying an hdual by its conjugate annihilates every coefficient of
order `1 .. nro`: the lowest surviving non-real order at least doubles. -/
theorem mul_conj_coeff_zero (b : hdual) (hb : b.value ≠ []) (m : ℕ)
    (h1 : 1 ≤ m) (h2 : m ≤ nro b.value) (hm : m < b.value.length) :
    (b.mul b.conj).coeff m = 0 := by
  have hmax : max b.value.length b.conj.value.length = b.value.length := by
    rw [hdual.conj_length]
    exact max_self _
  rw [hdual.mul_coeff b b.conj m (by rw [hmax]; exact hm)]
  obtain ⟨mm, rfl⟩ : ∃ mm, m = mm + 1 := ⟨m - 1, by omega⟩
  rw [Finset.sum_range_succ, Finset.sum_range_succ']
  have hmid : ∑ k ∈ Finset.range mm,
      ((mm + 1).choose (k + 1) : ℚ) * b.coeff (mm + 1 - (k + 1)) * b.conj.coeff (k + 1) = 0 := by
    apply Finset.sum_eq_zero
    intro k hk
    rw [Finset.mem_range] at hk
    have hz : b.coeff (mm + 1 - (k + 1)) = 0 := by
      apply nro_getD
      · omega
      · omega
    rw [hz]
    ring
  rw [hmid, zero_add]
  rw [hdual.conj_coeff_zero b hb, hdual.conj_coeff_succ b mm]
  simp only [Nat.choose_zero_right, Nat.choose_self, Nat.sub_self, Nat.sub_zero, Nat.cast_one]
  ring

/-- Rationalizing a non-real divisor strictly raises the exact order of its
non-real part (it at least doubles), which drives the termination of the
division recursion below. -/
theorem nro_mul_conj (b : hdual) (h : ¬ b.isReal) :
    nro b.value < nro (b.mul b.conj).value ∧ nro b.value < b.value.length := by
  obtain ⟨hlt, hb⟩ := nro_lt_of_not_isReal b h
  refine ⟨?_, hlt⟩
  have hdlen : (b.mul b.conj).value.length = b.value.length := by
    rw [hdual.mul_length, hdual.conj_length]
    exact max_self _
  have hdne : (b.mul b.conj).value ≠ [] := by
    intro h0
    rw [h0] at hdlen
    simp at hdlen
    omega
  have htail : ∀ i < nro b.value, (b.mul b.conj).value.tail.getD i 0 = 0 := by
    intro i hi
    rw [tail_getD]
    exact mul_conj_coeff_zero b hb (i + 1) (by omega) (by omega) (by omega)
  have hge := zrun_ge (b.mul b.conj).value.tail (nro b.value) htail
  have htlen : (b.mul b.conj).value.tail.length + 1 = b.value.length := by
    cases hv : (b.mul b.conj).value with
    | nil => exact absurd hv hdne
    | cons x xs =>
      have : (b.mul b.conj).value.length = xs.length + 1 := by rw [hv]; simp
      simp only [hv, List.tail_cons]
      omega
  unfold nro at hlt hge ⊢
  omega

/-- Python/numpy failure modes of the embedded code.  `nonFinite` is not a
Python exception: it flags that numpy division by zero emitted its
RuntimeWarning and produced `inf`/`nan` coefficients (which `ℚ` cannot
represent); the Python code continues with that non-finite array.
`unmodeledNested` likewise flags the value produced by numpy broadcasting a
coefficient array against an `hdual` object (a nested object array); it is
reachable only through empty coefficient arrays. -/
inductive PyErr where
  | typeError
  | indexError
  | valueError
  | zeroDivisionError
  | attributeError
  | nonFinite
  | unmodeledNested
  deriving DecidableEq

/-- Elementwise numpy division of an hdual's coefficient array by a numpy
scalar, `hdual(self.value / other)`: dividing a nonempty array by zero
produces non-finite entries (flagged; numpy warns and continues). -/
def scalarDivNp (a : hdual) (c : ℚ) : Bool × Except PyErr hdual :=
  if c = 0 ∧ a.value ≠ [] then (false, .error .nonFinite)
  else (false, .ok ⟨a.value.map (fun q => q / c)⟩)

/-- The `except IndexError: return hdual(self.value/other)` arm of
`hdual.__truediv__` when `other` is an hdual.  It is reached only when an
operand has an empty coefficient array (possibly in a recursive call):
* empty numerator: numpy broadcasts an empty array, giving `hdual([])`;
* nonempty numerator, empty divisor: the elementwise `__rtruediv__` calls
  `conj` on the empty divisor, which re-raises IndexError;
* both nonempty (reached when a nested call raised IndexError): numpy
  produces a nested object array, flagged `unmodeledNested`. -/
def divFallback (a b : hdual) : Except PyErr hdual :=
  if a.value = [] then .ok ⟨[]⟩
  else if b.value = [] then .error .indexError
  else .error .unmodeledNested

/-- The `try ... except IndexError` of `hdual.__truediv__`: an IndexError
raised anywhere in the body (including recursive divisions) is caught and
answered by `divFallback`; every other outcome passes through. -/
def exCatch (r fb : Except PyErr hdual) : Except PyErr hdual :=
  match r with
  | .error .indexError => fb
  | x => x

/-- `hdual.__truediv__` with an hdual divisor.  Returns (warned, outcome):
the Bool records whether the `warn("0/0 encountered. Handling
automatically.")` of the indeterminate-form branch fired.  Branches, as in
the source:
1. empty operand: `self[0]` / `other[0]` raises IndexError, caught;
2. `np.allclose([self[0], other[0]], [0, 0])`: warn, then
   `hdual(self[1:]) / hdual(other[1:])` (still inside the `try`);
3. `other.is_real()`: `self / other[0]` — dividing by the numpy scalar
   `other[0]` subscripts it, raising IndexError into the nested call's own
   handler, i.e. elementwise numpy division `scalarDivNp`;
4. otherwise `(self*other.conj()) / (other*other.conj())` (inside `try`). -/
def hdual.div (a b : hdual) : Bool × Except PyErr hdual :=
  if h0 : a.value = [] ∨ b.value = [] then (false, divFallback a b)
  else if hz : npclose (a.coeff 0) 0 ∧ npclose (b.coeff 0) 0 then
    (true, exCatch (hdual.div ⟨a.value.tail⟩ ⟨b.value.tail⟩).2 (divFallback a b))
  else if hr : b.isReal then scalarDivNp a (b.coeff 0)
  else
    ((hdual.div (a.mul b.conj) (b.mul b.conj)).1,
      exCatch (hdual.div (a.mul b.conj) (b.mul b.conj)).2 (divFallback a b))
termination_by (b.value.length, b.value.length - nro b.value)
decreasing_by
  · apply Prod.Lex.left
    have hb : b.value ≠ [] := fun hx => h0 (Or.inr hx)
    have : 0 < b.value.length := List.length_pos.mpr hb
    simp only [List.length_tail]
    omega
  · have hgrow := nro_mul_conj b hr
    have hlen : (b.mul b.conj).value.length = b.value.length := by
      rw [hdual.mul_length, hdual.conj_length]
      exact max_self _
    rw [hlen]
    apply Prod.Lex.right
    omega

theorem exCatch_ne_idx (r fb : Except PyErr hdual) (h : fb ≠ .error .indexError) :
    exCatch r fb ≠ .error .indexError := by
  cases r with
  | ok v => simp [exCatch]
  | error e => cases e <;> simp [exCatch, h]

theorem exCatch_eq_self (r fb : Except PyErr hdual) (h : r ≠ .error .indexError) :
    exCatch r fb = r := by
  cases r with
  | ok v => simp [exCatch]
  | error e => cases e <;> simp [exCatch] <;> exact absurd rfl h

theorem divFallback_unmodeled (a b : hdual) (ha : a.value ≠ []) (hb : b.value ≠ []) :
    divFallback a b = .error .unmodeledNested := by
  unfold divFallback
  rw [if_neg ha, if_neg hb]

/-- With a nonempty divisor, `hdual.__truediv__` never lets an IndexError
escape: any IndexError raised inside the body is caught by the enclosing
handler. -/
theorem hdual.div_ne_idx (a b : hdual) (hb : b.value ≠ []) :
    (hdual.div a b).2 ≠ .error .indexError := by
  rw [hdual.div]
  by_cases h0 : a.value = [] ∨ b.value = []
  · rw [dif_pos h0]
    have ha : a.value = [] := by tauto
    simp [divFallback, ha]
  · rw [dif_neg h0]
    have ha : a.value ≠ [] := by tauto
    have hfb : divFallback a b = .error .unmodeledNested := divFallback_unmodeled a b ha hb
    by_cases hz : npclose (a.coeff 0) 0 ∧ npclose (b.coeff 0) 0
    · rw [dif_pos hz]
      apply exCatch_ne_idx
      rw [hfb]
      simp
    · rw [dif_neg hz]
      by_cases hr : b.isReal
      · rw [dif_pos hr]
        unfold scalarDivNp
        by_cases hc : b.coeff 0 = 0 ∧ a.value ≠ []
        · rw [if_pos hc]
          simp
        · rw [if_neg hc]
          simp
      · rw [dif_neg hr]
        apply exCatch_ne_idx
        rw [hfb]
        simp

/-- One step of the 0/0 branch: when both leading coefficients are
numerically zero (and the divisor keeps at least one coefficient after the
shift), division warns and returns exactly the quotient of the
order-shifted operands. -/
theorem hdual.div_shift (a b : hdual) (ha : a.value ≠ []) (hb2 : b.value.tail ≠ [])
    (h0a : npclose (a.coeff 0) 0) (h0b : npclose (b.coeff 0) 0) :
    (hdual.div a b).1 = true ∧
      (hdual.div a b).2 = (hdual.div ⟨a.value.tail⟩ ⟨b.value.tail⟩).2 := by
  have hb : b.value ≠ [] := by
    intro h
    rw [h] at hb2
    simp at hb2
  rw [hdual.div]
  rw [dif_neg (by tauto), dif_pos ⟨h0a, h0b⟩]
  refine ⟨rfl, ?_⟩
  exact exCatch_eq_self _ _ (hdual.div_ne_idx ⟨a.value.tail⟩ ⟨b.value.tail⟩ hb2)

/-- Dual numbers, `class dual(hdual)` of `HDual.py`: fields `re` and `im`. -/
structure dual where
  re : ℚ
  im : ℚ
  deriving DecidableEq

/-- Plain Python division of two numbers: raises ZeroDivisionError exactly
when the divisor is zero. -/
def pyDiv (x y : ℚ) : Except PyErr ℚ :=
  if y = 0 then .error .zeroDivisionError else .ok (x / y)

/-- Result of `dual.__truediv__`: the 0/0 branch returns the plain scalar
`self.im/other.im`, every other successful branch returns a dual. -/
inductive DualOut where
  | scalar (q : ℚ)
  | dl (d : dual)
  deriving DecidableEq

/-- `dual.__truediv__` with a dual divisor:
`if np.allclose([self.re, other.re], [0, 0]): return self.im/other.im`
else `dual(self.re/other.re, (self.im*other.re - self.re*other.im)/other.re**2)`
(the first argument's division is evaluated first, so a zero `other.re`
raises ZeroDivisionError out of `self.re/other.re`). -/
def dual.truediv (a b : dual) : Except PyErr DualOut :=
  if npclose a.re 0 ∧ npclose b.re 0 then (pyDiv a.im b.im).map .scalar
  else do
    let x ← pyDiv a.re b.re
    let y ← pyDiv (a.im * b.re - a.re * b.im) (b.re ^ 2)
    .ok (.dl ⟨x, y⟩)

/-- `class hdual_basis(hdual)` of `HDual.py`: fields `index`, `dim`,
`component` (default 1). -/
structure hdual_basis where
  index : ℕ
  dim : ℕ
  component : ℚ
  deriving DecidableEq

/-- The `value` array built by `hdual_basis.__init__`:
`np.zeros(dim)` with `component` written at `index`.  (The constructor
would raise IndexError for `index >= dim`; every construction in the
library keeps `index < dim`, where `List.set` agrees with it.) -/
def hdual_basis.toHdual (x : hdual_basis) : hdual :=
  ⟨(List.replicate x.dim 0).set x.index x.component⟩

/-- `math.factorial` on an integer: ValueError for negative arguments. -/
def pyFactorial (z : ℤ) : Except PyErr ℕ :=
  if z < 0 then .error .valueError else .ok (Nat.factorial z.toNat)

/-- Python `x**p` for a rational base and integer exponent:
ZeroDivisionError for `0**p` with negative `p`, otherwise the exact power. -/
def qzpowPy (q : ℚ) (p : ℤ) : Except PyErr ℚ :=
  if p < 0 ∧ q = 0 then .error .zeroDivisionError else .ok (q ^ p)

/-- The `hdual_basis` branch of `AFuncs.pow`:
`if x.index*p >= x.dim: return hdual_basis(0, x.dim, 0)` else
`hdual_basis(x.index*p, x.dim, (math.factorial(p*x.index)/pow(math.factorial(x.index), p))*pow(x.component, p))`.
The denominator `pow(math.factorial(x.index), p)` recurses into the real
branch of `pow` (an integer power of a positive integer, never failing);
`math.factorial(p*x.index)` raises ValueError when `p*x.index < 0`, and
`pow(x.component, p)` can raise ZeroDivisionError, in that evaluation
order. -/
def powBasis (x : hdual_basis) (p : ℤ) : Except PyErr hdual_basis :=
  if (x.dim : ℤ) ≤ (x.index : ℤ) * p then .ok ⟨0, x.dim, 0⟩
  else do
    let num ← pyFactorial ((p : ℤ) * (x.index : ℤ))
    let cp ← qzpowPy x.component p
    .ok ⟨((x.index : ℤ) * p).toNat, x.dim, ((num : ℚ) / (Nat.factorial x.index : ℚ) ^ p) * cp⟩

/-- A dynamically typed value of the library: a plain real, a dual, an
hdual, or an hdual_basis — the four cases `AFuncs.pow` dispatches on. -/
inductive PyVal where
  | real (q : ℚ)
  | du (d : dual)
  | hd (h : hdual)
  | hb (b : hdual_basis)
  deriving DecidableEq

/-- `np.prod` over a nonempty Python list of hduals (as built by
`pow(x, p)` for `p >= 1`): left-to-right reduction by `hdual.__mul__`;
`np.prod([])` is the float `1.0`. -/
def npProdHd (l : List hdual) : PyVal :=
  match l with
  | [] => .real 1
  | h :: t => .hd (t.foldl hdual.mul h)

/-- `AFuncs.pow(x, p)`, dispatching on `type(x)` in source order
(`hdual_basis`, then `hdual`, then `dual`, else the real case `x**p`).
For the hdual branch with `p != 0`: `np.prod([x]*p)` — the Python list
`[x]*p` is empty for negative `p`, so `np.prod` returns the float `1.0`. -/
def afPow (x : PyVal) (p : ℤ) : Except PyErr PyVal :=
  match x with
  | .hb b => (powBasis b p).map .hb
  | .hd h =>
    if p = 0 then .ok (.hd ⟨1 :: List.replicate (h.value.length - 1) 0⟩)
    else if p < 0 then .ok (.real 1)
    else .ok (npProdHd (List.replicate p.toNat h))
  | .du d => do
    let u ← qzpowPy d.re p
    let v ← qzpowPy d.re (p - 1)
    .ok (.du ⟨u, d.im * (p : ℚ) * v⟩)
  | .real q => (qzpowPy q p).map .real

/-- `hdual.__truediv__` with a scalar divisor `c`.  The body first builds
`[self[0], other[0]]`: subscripting a plain Python int/float raises
TypeError, which the `except IndexError` does **not** catch; subscripting a
numpy scalar raises IndexError, which lands in the elementwise fallback
`hdual(self.value/other)`.  (With an empty `self.value`, `self[0]` raises
IndexError first, so even a Python scalar reaches the fallback.)
`isNp` records which kind of scalar arrived. -/
def hdual.divScalar (a : hdual) (isNp : Bool) (c : ℚ) : Bool × Except PyErr hdual :=
  if isNp then scalarDivNp a c
  else if a.value = [] then (false, .ok ⟨[]⟩)
  else (false, .error .typeError)

/-- One Maclaurin term of `AFuncs.exp`'s hdual branch:
`pow(hdual_basis(i, x.dim, x[i]), j)/math.factorial(j)`.  The divisor
`math.factorial(j)` is a plain Python int, so the division enters
`hdual.divScalar` with `isNp = false`. -/
def expTerm (x : hdual) (i j : ℕ) : Except PyErr hdual := do
  let hb ← powBasis ⟨i, x.value.length, x.coeff i⟩ (j : ℤ)
  (hdual.divScalar hb.toHdual false (Nat.factorial j : ℚ)).2

/-- Evaluate a Python list comprehension of fallible elements: the first
exception aborts the whole comprehension. -/
def exceptMapList (f : ℕ → Except PyErr hdual) : List ℕ → Except PyErr (List hdual)
  | [] => .ok []
  | a :: t => do
    let b2 ← f a
    let r ← exceptMapList f t
    .ok (b2 :: r)

/-- `np.sum` over a Python list of hduals: numpy reduces with `0 + h0 + h1
+ ...`; the leading `0 + h0` takes `hdual.__radd__`'s scalar branch, whose
result has the same coefficients as `h0`.  `np.sum([])` is the float `0.0`. -/
def npSumHd (l : List hdual) : PyVal :=
  match l with
  | [] => .real 0
  | h :: t => .hd (t.foldl hdual.add h)

/-- The factor of `AFuncs.exp` for one basis direction `i`:
`np.sum([pow(hdual_basis(i, x.dim, x[i]), j)/math.factorial(j) for j in
range(math.floor(x.dim/i) + 1)])`. -/
def expFactor (x : hdual) (i : ℕ) : Except PyErr PyVal := do
  let terms ← exceptMapList (fun j => expTerm x i j) (List.range (x.value.length / i + 1))
  .ok (npSumHd terms)

/-- One multiplication step of `np.prod` over `[exp(x[0])] + factors`:
only float and hdual operands occur in that list; any other combination is
unreachable there and flagged. -/
def expProdStep (x y : PyVal) : Except PyErr PyVal :=
  match x, y with
  | .real a, .real b2 => .ok (.real (a * b2))
  | .real a, .hd h => .ok (.hd ⟨h.value.map (fun q => a * q)⟩)
  | .hd h, .real a => .ok (.hd ⟨h.value.map (fun q => q * a)⟩)
  | .hd h, .hd g => .ok (.hd (h.mul g))
  | _, _ => .error .unmodeledNested

/-- Left-to-right reduction of `np.prod` over `[exp(x[0])] + factors`. -/
def expProd : PyVal → List PyVal → Except PyErr PyVal
  | acc, [] => .ok acc
  | acc, f :: t => do
    let acc2 ← expProdStep acc f
    expProd acc2 t

/-- Evaluate the factor list of `AFuncs.exp` (a Python list comprehension
over `i in range(1, x.dim)`). -/
def expFactors (x : hdual) : List ℕ → Except PyErr (List PyVal)
  | [] => .ok []
  | i :: t => do
    let f ← expFactor x i
    let r ← expFactors x t
    .ok (f :: r)

/-- The hdual branch of `AFuncs.exp`:
`np.prod([exp(x[0], complex=complex)] + [np.sum([...]) for i in range(1, x.dim)])`.
The scalar exponential `exp(x[0])` is modelled by an abstract function `E`
(its value never matters for the claims below).  An empty `x` raises
IndexError at `x[0]`. -/
def expHdual (E : ℚ → ℚ) (x : hdual) : Except PyErr PyVal :=
  if x.value = [] then .error .indexError
  else do
    let factors ← expFactors x ((List.range (x.value.length - 1)).map (fun i2 => i2 + 1))
    expProd (.real (E (x.coeff 0))) factors

/-- `hdual.__getitem__` (`self.value[item]`), dispatched over the library's
value kinds: floats are not subscriptable (TypeError); `dual` inherits
`hdual.__getitem__` (its own `__getitem` is misnamed) and indexes its
2-element `value = [re, im]`; hduals and basis hduals index their
coefficient arrays, raising IndexError out of range. -/
def pyIndex (v : PyVal) (n : ℕ) : Except PyErr ℚ :=
  match v with
  | .real _ => .error .typeError
  | .du d => if n < 2 then .ok ([d.re, d.im].getD n 0) else .error .indexError
  | .hd h => if n < h.value.length then .ok (h.coeff n) else .error .indexError
  | .hb b => if n < b.dim then .ok (b.toHdual.coeff n) else .error .indexError

/-- `TDerivs.oderiv1`: `f(dual(x, 1)).im`.  Accessing `.im` on a non-dual
result raises AttributeError. -/
def oderiv1 (f : dual → Except PyErr PyVal) (x : ℚ) : Except PyErr ℚ := do
  let v ← f ⟨x, 1⟩
  match v with
  | .du d => .ok d.im
  | _ => .error .attributeError

/-- The seed of `TDerivs.oderivn`: `hdual([x, 1] + [0 for i in range(n - 1)])`
(for `n = 0` the Python range is empty, so the seed is still `[x, 1]`). -/
def oseed (x : ℚ) (n : ℕ) : hdual := ⟨x :: 1 :: List.replicate (n - 1) 0⟩

/-- `TDerivs.oderivn` (default `return_lower_derivs=False` path):
`derivs = f(hdual([x, 1] + [0]*(n-1)))`, then `derivs[n]`. -/
def oderivn (f : hdual → Except PyErr PyVal) (x : ℚ) (n : ℕ) : Except PyErr ℚ := do
  let v ← f (oseed x n)
  pyIndex v n

/-- The example function `f(x) = x^3` built from `AFuncs.pow`, on hduals. -/
def cubeH (h : hdual) : Except PyErr PyVal := afPow (.hd h) 3

/-- The example function `f(x) = x^3` built from `AFuncs.pow`, on duals. -/
def cubeD (d : dual) : Except PyErr PyVal := afPow (.du d) 3

/-- A top-level statement of a Python module body, as far as name
resolution is concerned: a `class C(B)` statement (which evaluates the base
name `B` when executed) or any other binding statement. -/
inductive PyStmt where
  | classDef (name : String) (base : String)
  | defName (name : String)

/-- Execute one statement in an environment of bound names: a class
statement whose base is unbound raises `NameError: name B is not defined`
(the error carries the missing name). -/
def execStmt (env : List String) : PyStmt → Except String (List String)
  | .classDef n b => if b ∈ env then .ok (n :: env) else .error b
  | .defName n => .ok (n :: env)

/-- Execute a module body statement by statement; the first NameError
aborts the import. -/
def execModule (env : List String) : List PyStmt → Except String (List String)
  | [] => .ok env
  | s :: rest => do
    let e ← execStmt env s
    execModule e rest

/-- Names bound before any statement of a module body runs. -/
def pyBuiltins : List String := ["object"]

/-- The top-level statements of `HDual.py`, in source order: the imports,
then `class dual(hdual)` at line 5, `class hdual(object)` at line 78, and
`class hdual_basis(hdual)` at line 164. -/
def HDualModuleStmts : List PyStmt :=
  [.defName "np", .defName "warn", .defName "comb",
   .classDef "dual" "hdual", .classDef "hdual" "object", .classDef "hdual_basis" "hdual"]

/-- Importing `HDual` executes its module body. -/
def importHDual : Except String (List String) := execModule pyBuiltins HDualModuleStmts

/-- Importing `AFuncs`: its statement `from HDual import dual, hdual,
hdual_basis` first executes the HDual module body; a NameError there
propagates to the importer before any of AFuncs' own definitions bind. -/
def importAFuncs : Except String (List String) := do
  let menv ← importHDual
  execModule ("math" :: "cmath" :: "np" :: menv)
    [.defName "pow", .defName "exp", .defName "sin", .defName "cos"]

/-- Importing `TDerivs`: `from HDual import dual, hdual` likewise executes
the HDual module body first. -/
def importTDerivs : Except String (List String) := do
  let menv ← importHDual
  execModule ("warning" :: "Iterable" :: "np" :: menv)
    [.defName "oderiv1", .defName "oderivn", .defName "pderiv1",
     .defName "grad", .defName "dderiv"]

/-- Fetching any name from the HDual module (the first step of every use of
the library). -/
def importFromHDual (n : String) : Except String Unit := do
  let menv ← importHDual
  if n ∈ menv then .ok () else .error n

/-- Multiplication of hduals is commutative (any dimensions). -/
theorem hmul_comm (a b : hdual) : a.mul b = b.mul a := by
  apply hdual.ext_coeff
  · rw [hdual.mul_length, hdual.mul_length]
    exact Nat.max_comm _ _
  · intro m hm
    rw [hdual.mul_length] at hm
    rw [hdual.mul_coeff a b m hm, hdual.mul_coeff b a m (by omega)]
    conv_rhs => rw [← Finset.sum_range_reflect
      (fun k => (Nat.choose m k : ℚ) * b.coeff (m - k) * a.coeff k) (m + 1)]
    apply Finset.sum_congr rfl
    intro j hj
    rw [Finset.mem_range] at hj
    have h1 : m + 1 - 1 - j = m - j := by omega
    have h2 : m - (m - j) = j := by omega
    rw [h1, h2, Nat.choose_symm (by omega)]
    ring

/-- Multiplication distributes over addition when the two summands have the
same dimension (the truncation of all three products then agrees). -/
theorem hmul_add_right (a b c : hdual) (h : b.value.length = c.value.length) :
    a.mul (b.add c) = (a.mul b).add (a.mul c) := by
  have hbc : (b.add c).value.length = b.value.length := by
    rw [hdual.add_length]
    omega
  apply hdual.ext_coeff
  · rw [hdual.mul_length, hbc, hdual.add_length, hdual.mul_length, hdual.mul_length]
    omega
  · intro m hm
    rw [hdual.mul_length, hbc] at hm
    rw [hdual.mul_coeff a (b.add c) m (by rw [hbc]; omega)]
    rw [hdual.add_coeff (a.mul b) (a.mul c) m]
    rw [hdual.mul_coeff a b m (by omega), hdual.mul_coeff a c m (by omega)]
    rw [← Finset.sum_add_distrib]
    apply Finset.sum_congr rfl
    intro j hj
    rw [hdual.add_coeff b c j]
    ring

theorem div_ex_shifted : hdual.div ⟨[1, 2]⟩ ⟨[2, 3]⟩ = (false, .ok ⟨[1/2, 1/4]⟩) := by
  have s1 : hdual.div ⟨[2, 1]⟩ ⟨[4, 0]⟩ = (false, .ok ⟨[1/2, 1/4]⟩) := by
    rw [hdual.div]
    rw [dif_neg (by simp), dif_neg (by norm_num [hdual.coeff, npclose, atol, rtol]),
      dif_pos (by norm_num [hdual.isReal, npclose, atol, rtol])]
    norm_num [scalarDivNp, hdual.coeff]
  have s2 : hdual.mul ⟨[1, 2]⟩ (hdual.conj ⟨[2, 3]⟩) = ⟨[2, 1]⟩ := by
    norm_num [hdual.mul, hdual.conj, mulLine, List.range_succ, List.replicate_succ,
      List.set_cons_zero, List.set_cons_succ]
  have s3 : hdual.mul ⟨[2, 3]⟩ (hdual.conj ⟨[2, 3]⟩) = ⟨[4, 0]⟩ := by
    norm_num [hdual.mul, hdual.conj, mulLine, List.range_succ, List.replicate_succ,
      List.set_cons_zero, List.set_cons_succ]
  rw [hdual.div]
  rw [dif_neg (by simp), dif_neg (by norm_num [hdual.coeff, npclose, atol, rtol])]
  rw [dif_neg (show ¬ (⟨[2, 3]⟩ : hdual).isReal by
    intro h
    have := h 3 (by norm_num)
    norm_num [npclose, atol, rtol] at this)]
  rw [s2, s3, s1]
  simp [exCatch]

theorem div_ex_main : hdual.div ⟨[0, 1, 2]⟩ ⟨[0, 2, 3]⟩ = (true, .ok ⟨[1/2, 1/4]⟩) := by
  rw [hdual.div]
  rw [dif_neg (by simp), dif_pos (by norm_num [hdual.coeff, npclose, atol, rtol])]
  simp only [List.tail_cons]
  rw [div_ex_shifted]
  simp [exCatch]

theorem div_cex_inner : hdual.div ⟨[1]⟩ ⟨[0]⟩ = (false, .error .nonFinite) := by
  rw [hdual.div]
  rw [dif_neg (by simp), dif_neg (by norm_num [hdual.coeff, npclose, atol, rtol]),
    dif_pos (by norm_num [hdual.isReal])]
  norm_num [scalarDivNp, hdual.coeff]

theorem div_cex_eval : hdual.div ⟨[0, 1]⟩ ⟨[0, 0]⟩ = (true, .error .nonFinite) := by
  rw [hdual.div]
  rw [dif_neg (by simp), dif_pos (by norm_num [hdual.coeff, npclose, atol, rtol])]
  simp only [List.tail_cons]
  rw [div_cex_inner]
  simp [exCatch]

theorem divScalar_py_typeError (a : hdual) (c : ℚ) (h : a.value ≠ []) :
    hdual.divScalar a false c = (false, .error .typeError) := by
  rw [hdual.divScalar]
  simp [h]

theorem powBasis_zero (x : hdual_basis) (h : 0 < x.dim) : powBasis x 0 = .ok ⟨0, x.dim, 1⟩ := by
  rw [powBasis, if_neg (by push_cast; omega)]
  simp [pyFactorial, qzpowPy, Bind.bind, Except.instMonad, Except.bind]

theorem toHdual_ne_nil (x : hdual_basis) (h : 0 < x.dim) : x.toHdual.value ≠ [] := by
  intro h0
  apply_fun List.length at h0
  simp [hdual_basis.toHdual] at h0
  omega

theorem expTerm_one_zero (x : hdual) (h : 2 ≤ x.value.length) :
    expTerm x 1 0 = .error .typeError := by
  rw [expTerm]
  have hz : ((0 : ℕ) : ℤ) = (0 : ℤ) := rfl
  rw [hz, powBasis_zero ⟨1, x.value.length, x.coeff 1⟩ (by show 0 < x.value.length; omega)]
  have hd : hdual.divScalar (⟨0, x.value.length, 1⟩ : hdual_basis).toHdual false (1 : ℚ) =
      (false, .error .typeError) :=
    divScalar_py_typeError _ _ (toHdual_ne_nil _ (by show 0 < x.value.length; omega))
  simp [Bind.bind, Except.instMonad, Except.bind, hd]

theorem expFactor_one (x : hdual) (h : 2 ≤ x.value.length) :
    expFactor x 1 = .error .typeError := by
  rw [expFactor]
  have hd1 : x.value.length / 1 + 1 = x.value.length + 1 := by omega
  rw [hd1, List.range_succ_eq_map, exceptMapList]
  simp [expTerm_one_zero x h, Bind.bind, Except.instMonad, Except.bind]

theorem expHdual_typeError (E : ℚ → ℚ) (x : hdual) (h : 2 ≤ x.value.length) :
    expHdual E x = .error .typeError := by
  have hne : x.value ≠ [] := by
    intro h0
    rw [h0] at h
    simp at h
  rw [expHdual, if_neg hne]
  have hx : x.value.length - 1 = (x.value.length - 2) + 1 := by omega
  rw [hx, List.range_succ_eq_map]
  simp only [List.map_cons]
  rw [expFactors]
  simp [expFactor_one x h, Bind.bind, Except.instMonad, Except.bind]

theorem powBasis_collapse (x : hdual_basis) (p : ℕ) (h : x.dim ≤ x.index * p) :
    powBasis x (p : ℤ) = .ok ⟨0, x.dim, 0⟩ := by
  rw [powBasis, if_pos (by push_cast; exact_mod_cast Nat.cast_le.mpr h)]

theorem powBasis_formula (x : hdual_basis) (p : ℕ) (h : x.index * p < x.dim) :
    powBasis x (p : ℤ) =
      .ok ⟨x.index * p, x.dim,
        x.component ^ p * ((Nat.factorial (p * x.index) : ℚ) / (Nat.factorial x.index : ℚ) ^ p)⟩ := by
  rw [powBasis, if_neg (by push_cast; exact_mod_cast not_le.mpr (Nat.cast_lt.mpr h))]
  have h1 : ((p : ℤ) * (x.index : ℤ)).toNat = p * x.index := by
    rw [← Nat.cast_mul]
    exact Int.toNat_natCast _
  have h2 : ((x.index : ℤ) * (p : ℤ)).toNat = x.index * p := by
    rw [← Nat.cast_mul]
    exact Int.toNat_natCast _
  have h3 : ¬ ((p : ℤ) < 0 ∧ x.component = 0) := by
    intro hc
    omega
  simp only [pyFactorial, qzpowPy, if_neg (by omega : ¬ ((p : ℤ) * (x.index : ℤ) < 0)),
    if_neg h3, Bind.bind, Except.instMonad, Except.bind, h1, h2]
  congr 1
  rw [zpow_natCast, zpow_natCast]
  ring

theorem powBasis_neg_valueError : powBasis ⟨1, 2, 1⟩ (-1) = .error .valueError := by
  rw [powBasis, if_neg (by norm_num)]
  simp [pyFactorial, Bind.bind, Except.instMonad, Except.bind]

/-- `hdual_basis(0, dim, 0)` is the all-zero coefficient vector. -/
theorem toHdual_zero (d : ℕ) :
    hdual_basis.toHdual ⟨0, d, 0⟩ = ⟨List.replicate d 0⟩ := by
  unfold hdual_basis.toHdual
  cases d with
  | zero => rfl
  | succ n => simp [List.replicate_succ]

theorem dual_div_cases (a b : dual) (h : ¬ (npclose a.re 0 ∧ npclose b.re 0)) :
    (b.re = 0 → dual.truediv a b = .error .zeroDivisionError) ∧
    (b.re ≠ 0 → dual.truediv a b =
      .ok (.dl ⟨a.re / b.re, (a.im * b.re - a.re * b.im) / b.re ^ 2⟩)) := by
  rw [dual.truediv, if_neg h]
  constructor
  · intro hb
    simp [pyDiv, hb, Bind.bind, Except.instMonad, Except.bind]
  · intro hb
    have h2 : b.re ^ 2 ≠ 0 := pow_ne_zero 2 hb
    simp [pyDiv, hb, h2, Bind.bind, Except.instMonad, Except.bind]

theorem dual_div_one_zero : dual.truediv ⟨1, 0⟩ ⟨0, 0⟩ = .error .zeroDivisionError := by
  rw [dual.truediv, if_neg (by norm_num [npclose, atol, rtol])]
  simp [pyDiv, Bind.bind, Except.instMonad, Except.bind]

/-- Claim C1: for every two hyperdual numbers of the same dimension `d`,
every coefficient `m < d` of the product equals the binomially weighted
convolution `Σ_{j+k=m} C(m,k)·a[j]·b[k]` (here indexed by `k` with
`j = m - k`), and all terms of combined order at or above `d` are dropped:
the product has exactly `d` coefficients and none beyond. -/
theorem c1_mul_binomial_convolution (a b : hdual) (hd : a.dim = b.dim) :
    (a.mul b).dim = a.dim ∧
    (∀ m < a.dim, (a.mul b).coeff m =
      ∑ k ∈ Finset.range (m + 1), (Nat.choose m k : ℚ) * a.coeff (m - k) * b.coeff k) ∧
    (∀ m, a.dim ≤ m → (a.mul b).coeff m = 0) := by
  unfold hdual.dim at hd ⊢
  refine ⟨?_, ?_, ?_⟩
  · rw [hdual.mul_length]
    omega
  · intro m hm
    exact hdual.mul_coeff a b m (by omega)
  · intro m hm
    exact hdual.mul_coeff_high a b m (by omega)

theorem c1_witness :
    (⟨[1, 2]⟩ : hdual).dim = (⟨[3, 4]⟩ : hdual).dim ∧
    ((hdual.mul ⟨[1, 2]⟩ ⟨[3, 4]⟩).dim = (⟨[1, 2]⟩ : hdual).dim ∧
      (∀ m < (⟨[1, 2]⟩ : hdual).dim, (hdual.mul ⟨[1, 2]⟩ ⟨[3, 4]⟩).coeff m =
        ∑ k ∈ Finset.range (m + 1),
          (Nat.choose m k : ℚ) * (⟨[1, 2]⟩ : hdual).coeff (m - k) * (⟨[3, 4]⟩ : hdual).coeff k) ∧
      (∀ m, (⟨[1, 2]⟩ : hdual).dim ≤ m → (hdual.mul ⟨[1, 2]⟩ ⟨[3, 4]⟩).coeff m = 0)) :=
  ⟨rfl, c1_mul_binomial_convolution ⟨[1, 2]⟩ ⟨[3, 4]⟩ rfl⟩

/-- Claim C2 (the code cannot even compute `exp`): for every hyperdual of
dimension at least 2, the hdual branch of `AFuncs.exp` raises TypeError at
its first Maclaurin term, because `pow(hdual_basis(...), j)/math.factorial(j)`
divides an hdual by a plain Python int and `hdual.__truediv__` subscripts
that int while catching only IndexError.  This holds for every scalar
exponential `E`, so the claimed identity `exp(a) * exp(-a) == [1, 0, ...]`
is never reached by the code. -/
theorem c2_exp_raises_typeError (E : ℚ → ℚ) (x : hdual) (h : 2 ≤ x.dim) :
    expHdual E x = .error .typeError :=
  expHdual_typeError E x h

theorem c2_witness :
    2 ≤ (⟨[0, 1]⟩ : hdual).dim ∧ expHdual (fun q => q) ⟨[0, 1]⟩ = .error .typeError :=
  ⟨by decide, c2_exp_raises_typeError (fun q => q) ⟨[0, 1]⟩ (by decide)⟩

/-- Claim C3: importing the HDual module fails with a NameError, because
`class dual(hdual)` is executed before `hdual` is bound; the error names
`hdual`.  Importing either dependent module (AFuncs, TDerivs) first
executes the HDual module body and fails the same way, and fetching any
name from HDual fails, so no operation of the public interface is ever
reachable as written. -/
theorem c3_import_fails :
    importHDual = .error "hdual" ∧ importAFuncs = .error "hdual" ∧
    importTDerivs = .error "hdual" ∧ ∀ n : String, importFromHDual n = .error "hdual" := by
  have h : importHDual = .error "hdual" := by rfl
  refine ⟨h, ?_, ?_, ?_⟩
  · rw [importAFuncs, h]
    rfl
  · rw [importTDerivs, h]
    rfl
  · intro n
    rw [importFromHDual, h]
    rfl

/-- Claim C4 (counterexample to the claim as stated): `[0,1] / [0,0]` has
both order-0 coefficients numerically zero, and the 0/0 branch does fire
(warning recorded, first component `true`), but the result is not a finite
order-shifted quotient: the recursion bottoms out dividing `[1]` by the
zero scalar `0`, and numpy produces non-finite (`inf`) coefficients
(flagged `nonFinite`; no exception is raised). -/
theorem c4_counterexample : hdual.div ⟨[0, 1]⟩ ⟨[0, 0]⟩ = (true, .error .nonFinite) :=
  div_cex_eval

/-- Claim C4 (amended): for operands with both order-0 coefficients
numerically zero (numerator nonempty, divisor of dimension at least 2),
division does not raise: it sets the 0/0 warning flag and returns exactly
the quotient of the order-shifted operands; for the `[0,1,2]/[0,2,3]`
example this is the finite order-shifted quotient `[1/2, 1/4]`, matching
the direct division `[1,2]/[2,3]`. -/
theorem c4_zero_zero_shift (a b : hdual) (ha : a.value ≠ []) (hb2 : b.value.tail ≠ [])
    (h0a : npclose (a.coeff 0) 0) (h0b : npclose (b.coeff 0) 0) :
    ((hdual.div a b).1 = true ∧
      (hdual.div a b).2 = (hdual.div ⟨a.value.tail⟩ ⟨b.value.tail⟩).2) ∧
    hdual.div ⟨[0, 1, 2]⟩ ⟨[0, 2, 3]⟩ = (true, .ok ⟨[1/2, 1/4]⟩) ∧
    hdual.div ⟨[1, 2]⟩ ⟨[2, 3]⟩ = (false, .ok ⟨[1/2, 1/4]⟩) :=
  ⟨hdual.div_shift a b ha hb2 h0a h0b, div_ex_main, div_ex_shifted⟩

theorem c4_witness :
    ((⟨[0, 1, 2]⟩ : hdual).value ≠ [] ∧ (⟨[0, 2, 3]⟩ : hdual).value.tail ≠ [] ∧
      npclose ((⟨[0, 1, 2]⟩ : hdual).coeff 0) 0 ∧ npclose ((⟨[0, 2, 3]⟩ : hdual).coeff 0) 0) ∧
    (((hdual.div ⟨[0, 1, 2]⟩ ⟨[0, 2, 3]⟩).1 = true ∧
      (hdual.div ⟨[0, 1, 2]⟩ ⟨[0, 2, 3]⟩).2 =
        (hdual.div ⟨(⟨[0, 1, 2]⟩ : hdual).value.tail⟩ ⟨(⟨[0, 2, 3]⟩ : hdual).value.tail⟩).2) ∧
      hdual.div ⟨[0, 1, 2]⟩ ⟨[0, 2, 3]⟩ = (true, .ok ⟨[1/2, 1/4]⟩) ∧
      hdual.div ⟨[1, 2]⟩ ⟨[2, 3]⟩ = (false, .ok ⟨[1/2, 1/4]⟩)) :=
  ⟨⟨by simp, by simp, by norm_num [hdual.coeff, npclose, atol, rtol],
      by norm_num [hdual.coeff, npclose, atol, rtol]⟩,
    c4_zero_zero_shift ⟨[0, 1, 2]⟩ ⟨[0, 2, 3]⟩ (by simp) (by simp)
      (by norm_num [hdual.coeff, npclose, atol, rtol])
      (by norm_num [hdual.coeff, npclose, atol, rtol])⟩

/-- Claim C5 (counterexample to the claim as stated): with operands of
mixed dimensions distributivity fails.  For `a = b = [0,1]` and
`c = [0,0,0]`, the product `a*(b+c)` keeps the order-2 term `2` (dimension
3), while `a*b` is truncated at dimension 2 before being added to `a*c`,
so `a*b + a*c` is the zero vector of dimension 3. -/
theorem c5_counterexample :
    hdual.mul ⟨[0, 1]⟩ ((⟨[0, 1]⟩ : hdual).add ⟨[0, 0, 0]⟩) ≠
      (hdual.mul ⟨[0, 1]⟩ ⟨[0, 1]⟩).add (hdual.mul ⟨[0, 1]⟩ ⟨[0, 0, 0]⟩) := by
  have h1 : (⟨[0, 1]⟩ : hdual).add ⟨[0, 0, 0]⟩ = ⟨[0, 1, 0]⟩ := by
    norm_num [hdual.add, List.range_succ]
  have h2 : hdual.mul ⟨[0, 1]⟩ ⟨[0, 1, 0]⟩ = ⟨[0, 0, 2]⟩ := by
    norm_num [hdual.mul, mulLine, List.range_succ, List.replicate_succ,
      List.set_cons_zero, List.set_cons_succ]
  have h3 : hdual.mul ⟨[0, 1]⟩ ⟨[0, 1]⟩ = ⟨[0, 0]⟩ := by
    norm_num [hdual.mul, mulLine, List.range_succ, List.replicate_succ,
      List.set_cons_zero, List.set_cons_succ]
  have h4 : hdual.mul ⟨[0, 1]⟩ ⟨[0, 0, 0]⟩ = ⟨[0, 0, 0]⟩ := by
    norm_num [hdual.mul, mulLine, List.range_succ, List.replicate_succ,
      List.set_cons_zero, List.set_cons_succ]
  have h5 : (⟨[0, 0]⟩ : hdual).add ⟨[0, 0, 0]⟩ = ⟨[0, 0, 0]⟩ := by
    norm_num [hdual.add, List.range_succ]
  rw [h1, h2, h3, h4, h5]
  intro hx
  have := congrArg hdual.value hx
  simp at this

/-- Claim C5 (amended): hyperdual multiplication is commutative for all
dimension pairs; it distributes over addition whenever the two addends have
equal dimension (for mixed addend dimensions it can fail, because `a*b` is
truncated at `max(dim a, dim b)` while `a*(b+c)` keeps orders up to the
padded dimension). -/
theorem c5_comm_distrib (a b c : hdual) (h : b.dim = c.dim) :
    a.mul b = b.mul a ∧ a.mul (b.add c) = (a.mul b).add (a.mul c) :=
  ⟨hmul_comm a b, hmul_add_right a b c h⟩

theorem c5_witness :
    (⟨[3, 4]⟩ : hdual).dim = (⟨[5, 6]⟩ : hdual).dim ∧
    (hdual.mul ⟨[1, 2]⟩ ⟨[3, 4]⟩ = hdual.mul ⟨[3, 4]⟩ ⟨[1, 2]⟩ ∧
      hdual.mul ⟨[1, 2]⟩ ((⟨[3, 4]⟩ : hdual).add ⟨[5, 6]⟩) =
        (hdual.mul ⟨[1, 2]⟩ ⟨[3, 4]⟩).add (hdual.mul ⟨[1, 2]⟩ ⟨[5, 6]⟩)) :=
  ⟨rfl, c5_comm_distrib ⟨[1, 2]⟩ ⟨[3, 4]⟩ ⟨[5, 6]⟩ rfl⟩

/-- Claim C6 (what the code actually does): dividing an hdual by a plain
Python real never reaches the elementwise fallback: the body subscripts the
scalar (`other[0]`), a plain int/float raises TypeError, and the handler
catches only IndexError — so `hdual([1,2]) / 2.0` raises TypeError instead
of performing elementwise division (and a zero real likewise raises
TypeError, not DivisionByZero). -/
theorem c6_py_scalar_div_typeError :
    hdual.divScalar ⟨[1, 2]⟩ false 2 = (false, .error .typeError) :=
  divScalar_py_typeError ⟨[1, 2]⟩ 2 (by simp)

/-- Claim C7 (counterexample to the claim as stated): a divisor whose real
part is numerically close to zero but not exactly zero does NOT make
division fail.  With numerator real part `1` and divisor real part
`10^-10` (within `np.allclose`'s tolerance of zero), the quotient rule is
applied and returns the finite dual `(10^10, 0)`. -/
theorem c7_counterexample :
    npclose (1 / 10 ^ 10 : ℚ) 0 ∧ (1 : ℚ) ≠ 0 ∧
      dual.truediv ⟨1, 0⟩ ⟨1 / 10 ^ 10, 0⟩ = .ok (.dl ⟨10 ^ 10, 0⟩) := by
  refine ⟨?_, by norm_num, ?_⟩
  · unfold npclose atol rtol
    rw [sub_zero, abs_zero, abs_of_pos (by norm_num : (0 : ℚ) < 1 / 10 ^ 10)]
    norm_num
  · rw [dual.truediv, if_neg (by norm_num [npclose, atol, rtol])]
    simp [pyDiv, Bind.bind, Except.instMonad, Except.bind]

/-- Claim C7 (amended): outside the 0/0 branch (not both real parts
numerically close to zero), dual division fails with ZeroDivisionError
exactly when the divisor's real part is exactly zero, and otherwise
returns `(a/c) + ((bc - ad)/c^2)ε` by the quotient rule; in particular
`dual(1,0) / dual(0,0)` fails with ZeroDivisionError. -/
theorem c7_dual_div (a b : dual) (h : ¬ (npclose a.re 0 ∧ npclose b.re 0)) :
    ((b.re = 0 → dual.truediv a b = .error .zeroDivisionError) ∧
      (b.re ≠ 0 → dual.truediv a b =
        .ok (.dl ⟨a.re / b.re, (a.im * b.re - a.re * b.im) / b.re ^ 2⟩))) ∧
    dual.truediv ⟨1, 0⟩ ⟨0, 0⟩ = .error .zeroDivisionError :=
  ⟨dual_div_cases a b h, dual_div_one_zero⟩

theorem c7_witness :
    (¬ (npclose (1 : ℚ) 0 ∧ npclose (2 : ℚ) 0)) ∧
    ((((2 : ℚ) = 0 → dual.truediv ⟨1, 5⟩ ⟨2, 3⟩ = .error .zeroDivisionError) ∧
      ((2 : ℚ) ≠ 0 → dual.truediv ⟨1, 5⟩ ⟨2, 3⟩ =
        .ok (.dl ⟨1 / 2, ((5 : ℚ) * 2 - 1 * 3) / 2 ^ 2⟩))) ∧
      dual.truediv ⟨1, 0⟩ ⟨0, 0⟩ = .error .zeroDivisionError) :=
  ⟨by norm_num [npclose, atol, rtol],
    c7_dual_div ⟨1, 5⟩ ⟨2, 3⟩ (by norm_num [npclose, atol, rtol])⟩

/-- Claim C8 (counterexample to the claim as stated): for the negative
exponent `p = -1` and the basis element `e1` in dimension 2 we have
`p·index = -1 < dim`, so the claim asserts the closed-form single term is
returned; the code instead raises ValueError, because it computes
`math.factorial(p*x.index)` of a negative number. -/
theorem c8_counterexample : powBasis ⟨1, 2, 1⟩ (-1) = .error .valueError :=
  powBasis_neg_valueError

/-- Claim C8 (amended): for every BasisHyperdual and every non-negative
integer exponent `p`, `pow` returns the single term
`c^p · (p·i)! / (i!)^p` placed at order `p·i` when `p·i < dim`, and
collapses to the additive identity (the all-zero coefficient vector)
without error when `p·i ≥ dim`.  (Negative exponents with `index ≥ 1`
raise ValueError instead, per the counterexample.) -/
theorem c8_pow_basis (x : hdual_basis) (p : ℕ) :
    (x.dim ≤ x.index * p → powBasis x (p : ℤ) = .ok ⟨0, x.dim, 0⟩ ∧
      hdual_basis.toHdual ⟨0, x.dim, 0⟩ = ⟨List.replicate x.dim 0⟩) ∧
    (x.index * p < x.dim → powBasis x (p : ℤ) =
      .ok ⟨x.index * p, x.dim,
        x.component ^ p * ((Nat.factorial (p * x.index) : ℚ) / (Nat.factorial x.index : ℚ) ^ p)⟩) :=
  ⟨fun h => ⟨powBasis_collapse x p h, toHdual_zero x.dim⟩, powBasis_formula x p⟩

theorem c8_witness :
    ((⟨1, 3, 2⟩ : hdual_basis).index * 1 < (⟨1, 3, 2⟩ : hdual_basis).dim ∧
      powBasis ⟨1, 3, 2⟩ ((1 : ℕ) : ℤ) =
        .ok ⟨(⟨1, 3, 2⟩ : hdual_basis).index * 1, (⟨1, 3, 2⟩ : hdual_basis).dim,
          (⟨1, 3, 2⟩ : hdual_basis).component ^ 1 *
            ((Nat.factorial (1 * (⟨1, 3, 2⟩ : hdual_basis).index) : ℚ) /
              (Nat.factorial (⟨1, 3, 2⟩ : hdual_basis).index : ℚ) ^ 1)⟩) ∧
    ((⟨1, 2, 1⟩ : hdual_basis).dim ≤ (⟨1, 2, 1⟩ : hdual_basis).index * 3 ∧
      powBasis ⟨1, 2, 1⟩ ((3 : ℕ) : ℤ) = .ok ⟨0, (⟨1, 2, 1⟩ : hdual_basis).dim, 0⟩) :=
  ⟨⟨by decide, (c8_pow_basis ⟨1, 3, 2⟩ 1).2 (by decide)⟩,
    ⟨by decide, ((c8_pow_basis ⟨1, 2, 1⟩ 3).1 (by decide)).1⟩⟩

/-- Claim C9: the n-th order derivative routine evaluates `f` at a
hyperdual of dimension `n + 1` seeded `[x, 1, 0, ..., 0]` (for `n ≥ 1`) and
returns coefficient `n` of the result; concretely, for `f(x) = x^3` built
from `AFuncs.pow`, the order-1 derivative at `x = 2` is `12` and the n-th
order derivative with `n = 2` at `x = 2` is `12`. -/
theorem c9_cube_derivatives :
    (∀ (f : hdual → Except PyErr PyVal) (x : ℚ) (n : ℕ), 1 ≤ n →
      (oseed x n).dim = n + 1 ∧ (oseed x n).value = x :: 1 :: List.replicate (n - 1) 0 ∧
      oderivn f x n = Except.bind (f (oseed x n)) (fun v => pyIndex v n)) ∧
    oderiv1 cubeD 2 = .ok 12 ∧ oderivn cubeH 2 2 = .ok 12 := by
  refine ⟨?_, ?_, ?_⟩
  · intro f x n hn
    refine ⟨?_, rfl, rfl⟩
    show (x :: 1 :: List.replicate (n - 1) 0).length = n + 1
    simp
    omega
  · simp [oderiv1, cubeD, afPow, qzpowPy, Bind.bind, Except.instMonad, Except.bind]
    norm_num
  · have hm1 : hdual.mul ⟨[2, 1, 0]⟩ ⟨[2, 1, 0]⟩ = ⟨[4, 4, 2]⟩ := by
      norm_num [hdual.mul, mulLine, List.range_succ, List.replicate_succ,
        List.set_cons_zero, List.set_cons_succ]
    have hm2 : hdual.mul ⟨[4, 4, 2]⟩ ⟨[2, 1, 0]⟩ = ⟨[8, 12, 12]⟩ := by
      norm_num [hdual.mul, mulLine, List.range_succ, List.replicate_succ,
        List.set_cons_zero, List.set_cons_succ]
    simp [oderivn, oseed, cubeH, afPow, npProdHd, List.replicate_succ, hm1, hm2]
    rfl

theorem c9_witness :
    1 ≤ 2 ∧
    ((oseed 2 2).dim = 2 + 1 ∧ (oseed 2 2).value = 2 :: 1 :: List.replicate (2 - 1) 0 ∧
      oderivn cubeH 2 2 = Except.bind (cubeH (oseed 2 2)) (fun v => pyIndex v 2)) :=
  ⟨by decide, c9_cube_derivatives.1 cubeH 2 2 (by decide)⟩

/-- Claim C10: for two hyperdual numbers of differing dimension, addition
and multiplication treat the shorter operand as zero-padded at high order
and produce a result whose dimension is the maximum of the two operand
dimensions, with `len(coeffs) == dim` holding for the result. -/
theorem c10_mixed_dims (a b : hdual) (h : a.dim ≠ b.dim) :
    ((a.add b).dim = max a.dim b.dim ∧
      (a.add b).value.length = (a.add b).dim ∧
      ∀ i, (a.add b).coeff i = a.coeff i + b.coeff i) ∧
    ((a.mul b).dim = max a.dim b.dim ∧
      (a.mul b).value.length = (a.mul b).dim ∧
      ∀ m < max a.dim b.dim, (a.mul b).coeff m =
        ∑ k ∈ Finset.range (m + 1), (Nat.choose m k : ℚ) * a.coeff (m - k) * b.coeff k) := by
  unfold hdual.dim
  exact ⟨⟨hdual.add_length a b, rfl, hdual.add_coeff a b⟩,
    ⟨hdual.mul_length a b, rfl, fun m hm => hdual.mul_coeff a b m hm⟩⟩

theorem c10_witness :
    (⟨[1, 2]⟩ : hdual).dim ≠ (⟨[1, 2, 3]⟩ : hdual).dim ∧
    ((((⟨[1, 2]⟩ : hdual).add ⟨[1, 2, 3]⟩).dim = max (⟨[1, 2]⟩ : hdual).dim (⟨[1, 2, 3]⟩ : hdual).dim ∧
      ((⟨[1, 2]⟩ : hdual).add ⟨[1, 2, 3]⟩).value.length = ((⟨[1, 2]⟩ : hdual).add ⟨[1, 2, 3]⟩).dim ∧
      ∀ i, ((⟨[1, 2]⟩ : hdual).add ⟨[1, 2, 3]⟩).coeff i =
        (⟨[1, 2]⟩ : hdual).coeff i + (⟨[1, 2, 3]⟩ : hdual).coeff i) ∧
    (((⟨[1, 2]⟩ : hdual).mul ⟨[1, 2, 3]⟩).dim = max (⟨[1, 2]⟩ : hdual).dim (⟨[1, 2, 3]⟩ : hdual).dim ∧
      ((⟨[1, 2]⟩ : hdual).mul ⟨[1, 2, 3]⟩).value.length = ((⟨[1, 2]⟩ : hdual).mul ⟨[1, 2, 3]⟩).dim ∧
      ∀ m < max (⟨[1, 2]⟩ : hdual).dim (⟨[1, 2, 3]⟩ : hdual).dim,
        ((⟨[1, 2]⟩ : hdual).mul ⟨[1, 2, 3]⟩).coeff m =
          ∑ k ∈ Finset.range (m + 1),
            (Nat.choose m k : ℚ) * (⟨[1, 2]⟩ : hdual).coeff (m - k) * (⟨[1, 2, 3]⟩ : hdual).coeff k)) :=
  ⟨by decide, c10_mixed_dims ⟨[1, 2]⟩ ⟨[1, 2, 3]⟩ (by decide)⟩
